import Mathlib

/-!
Verification of the peastat log analyzer (themes/djangobook/static/pea.py).

Lines of log text are modelled as `List Char`; Python strings are lists of
characters, Python lists are Lean lists, fallible operations (indexing that
can raise `IndexError`, code paths that can raise) return `Option`.
Floating-point quantities (`time.time()` values, the average-characters-per-
line estimate) are modelled as rationals.  External collaborators (the file
system, `time.strptime`/`time.mktime`, the DNS resolver and the dbm cache
store) are passed in as explicit parameters, as the spec treats them as
out-of-scope collaborators.
-/

set_option maxRecDepth 40000

namespace Peastat

/-- Python `xs[i]` for a nonnegative index: `none` models `IndexError`. -/
def pyGet (xs : List α) (i : Nat) : Option α := xs.get? i

/-- Python `xs[-i]` for a negative index, `i ≥ 1`: `none` models `IndexError`. -/
def pyGetNeg (xs : List α) (i : Nat) : Option α :=
  if 1 ≤ i ∧ i ≤ xs.length then xs.get? (xs.length - i) else none

/-- Python `s.split(sep)` for a one-character separator; empty pieces are kept,
`''.split(sep) == ['']`. -/
def splitCh (sep : Char) : List Char → List (List Char)
  | [] => [[]]
  | c :: rest =>
    if c = sep then [] :: splitCh sep rest
    else
      match splitCh sep rest with
      | [] => [[c]]
      | h :: t => (c :: h) :: t

/-- Python `s.split('//')`: split on the two-character separator used by
`justdomain`, non-overlapping, left to right. -/
def splitDslash : List Char → List (List Char)
  | [] => [[]]
  | [c] => [[c]]
  | c :: d :: rest =>
    if c = '/' ∧ d = '/' then [] :: splitDslash rest
    else
      match splitDslash (d :: rest) with
      | [] => [[c]]
      | h :: t => (c :: h) :: t

/-- Python `pat in s` / `s.find(pat) != -1` / `s.count(pat) > 0`:
substring containment. -/
def isSubstr (pat : List Char) : List Char → Bool
  | [] => pat.isEmpty
  | c :: rest => pat.isPrefixOf (c :: rest) || isSubstr pat rest

/-- Python `s.replace(pat, rep)` (all occurrences, non-overlapping, left to
right), implemented with explicit fuel; each step consumes at least one
character, so fuel `s.length` is always sufficient. -/
def replaceFuel (pat rep : List Char) : Nat → List Char → List Char
  | _, [] => []
  | 0, s => s
  | fuel + 1, c :: rest =>
    if !pat.isEmpty && pat.isPrefixOf (c :: rest) then
      rep ++ replaceFuel pat rep fuel ((c :: rest).drop pat.length)
    else
      c :: replaceFuel pat rep fuel rest

/-- Python `s.replace(pat, rep)` for a nonempty pattern. -/
def pyReplace (pat rep s : List Char) : List Char := replaceFuel pat rep s.length s

/-- Python whitespace for `str.strip()`. -/
def isPySpace (c : Char) : Bool :=
  c = ' ' || c = '\t' || c = '\n' || c = '\r' || c = '\x0b' || c = '\x0c'

/-- Python `s.strip()`. -/
def pyStrip (s : List Char) : List Char :=
  ((s.dropWhile isPySpace).reverse.dropWhile isPySpace).reverse

/-- Python `str.lower` on a single byte-string character. -/
def lowerCh (c : Char) : Char :=
  if 'A' ≤ c && c ≤ 'Z' then Char.ofNat (c.toNat + 32) else c

/-- Python `s.lower()`. -/
def pyLower (s : List Char) : List Char := s.map lowerCh

/-- Python `d[k] = d.get(k, 0) + 1` on a dictionary modelled as an association
list with unique keys (new keys are appended at the end). -/
def dictIncr (d : List (List Char × Nat)) (k : List Char) : List (List Char × Nat) :=
  match d with
  | [] => [(k, 1)]
  | (k', v) :: rest => if k' = k then (k', v + 1) :: rest else (k', v) :: dictIncr rest k

/-- Python `d.get(k)` on an association-list dictionary. -/
def dictFind (d : List (List Char × α)) (k : List Char) : Option α :=
  match d with
  | [] => none
  | (k', v) :: rest => if k' = k then some v else dictFind rest k

/-- The dictionary-building step of `parse_qs`: append `v` to the value list
of key `k`, creating the entry if absent. -/
def qsInsert (d : List (List Char × List (List Char))) (k v : List Char) :
    List (List Char × List (List Char)) :=
  match d with
  | [] => [(k, [v])]
  | (k', vs) :: rest =>
    if k' = k then (k', vs ++ [v]) :: rest else (k', vs) :: qsInsert rest k v

/-- Value of a hexadecimal digit. -/
def hexVal (c : Char) : Option Nat :=
  if '0' ≤ c ∧ c ≤ '9' then some (c.toNat - '0'.toNat)
  else if 'a' ≤ c ∧ c ≤ 'f' then some (c.toNat - 'a'.toNat + 10)
  else if 'A' ≤ c ∧ c ≤ 'F' then some (c.toNat - 'A'.toNat + 10)
  else none

/-- One piece of `urllib.unquote`'s percent decoding: models
`chr(int(item[:2], 16)) + item[2:]`, falling back to a literal percent sign
when the first characters are not hexadecimal digits. -/
def unquotePiece (piece : List Char) : List Char :=
  match piece with
  | c1 :: c2 :: rest =>
    match hexVal c1, hexVal c2 with
    | some d1, some d2 => Char.ofNat (16 * d1 + d2) :: rest
    | _, _ => '%' :: piece
  | [c1] =>
    match hexVal c1 with
    | some d => [Char.ofNat d]
    | none => '%' :: [c1]
  | [] => ['%']

/-- Python 2 `urllib.unquote`. -/
def pyUnquote (s : List Char) : List Char :=
  match splitCh '%' s with
  | [] => s
  | first :: restPieces => first ++ (restPieces.map unquotePiece).flatten

/-- The `s.replace('+', ' ')` step of query-string parsing. -/
def plusToSpace (s : List Char) : List Char :=
  s.map (fun c => if c = '+' then ' ' else c)

/-- Python `s.split('=', 1)`: `none` when no equals sign is present. -/
def splitEqOnce (s : List Char) : Option (List Char × List Char) :=
  match splitCh '=' s with
  | [] => none
  | [_] => none
  | a :: b :: rest => some (a, List.intercalate ['='] (b :: rest))

/-- Python 2 `urlparse.parse_qsl` with default arguments (blank values and
fields without an equals sign are dropped): the name/value pairs in order. -/
def parseQsl (qs : List Char) : List (List Char × List Char) :=
  (((splitCh '&' qs).map (splitCh ';')).flatten).filterMap fun nv =>
    if nv.isEmpty then none
    else
      match splitEqOnce nv with
      | none => none
      | some (n, v) =>
        if v.isEmpty then none
        else some (pyUnquote (plusToSpace n), pyUnquote (plusToSpace v))

/-- Python 2 `cgi.parse_qs` with default arguments: dictionary from name to
list of values. -/
def parse_qs (qs : List Char) : List (List Char × List (List Char)) :=
  (parseQsl qs).foldl (fun d p => qsInsert d p.1 p.2) []

/-- Python `int()` applied to a float value: truncation toward zero. -/
def ratTrunc (q : ℚ) : ℤ := if 0 ≤ q then ⌊q⌋ else -⌊-q⌋

/-- Python 2 `int(round(x))`: rounding half away from zero. -/
def pyRound (q : ℚ) : ℤ := if 0 ≤ q then ⌊q + 1 / 2⌋ else -⌊-q + 1 / 2⌋

/-! ## Configuration values of pea.py -/

/-- The configured `rooturl` value. -/
def rooturlL : List Char := "http://www.djangobook.com/".toList

/-- The fallback string returned by `justdomain` for evil referrers. -/
def badReferrer : List Char := "bad referrer".toList

/-- `justdomain(url)`: `url.split('//')[1].split('/')[0]`, with `IndexError`
caught and turned into the literal `'bad referrer'`. -/
def justdomain (url : List Char) : List Char :=
  match pyGet (splitDslash url) 1 with
  | some piece =>
    match pyGet (splitCh '/' piece) 0 with
    | some d => d
    | none => badReferrer
  | none => badReferrer

/-- `thisdomain = justdomain(rooturl)`. -/
def thisdomainL : List Char := justdomain rooturlL

/-- `ispage = re.compile('/$').search`: the anchor `$` matches at the end of
the string or just before a trailing newline. -/
def ispage (r : List Char) : Bool :=
  match r.reverse with
  | '/' :: _ => true
  | '\n' :: '/' :: _ => true
  | _ => false

/-- The literal matched by the `ignorelines` regex `24\.124\.4\.220`. -/
def ignorePat : List Char := "24.124.4.220".toList

/-- `ignorelines(line)`: the ignore regex searched anywhere in the raw line. -/
def ignoreB (line : List Char) : Bool := isSubstr ignorePat line

/-! ## tailLines -/

/-- A log file whose lines are `ls`: every line is terminated by a newline. -/
def mkLog (ls : List (List Char)) : List Char :=
  (ls.map (fun l => l ++ ['\n'])).flatten

/-- The final `lines[start : len(lines) - 1]` slice of `tailLines`. -/
def finalSlice (lines : List (List Char)) (linesback : Nat) : List (List Char) :=
  let start := if lines.length > linesback then lines.length - linesback - 1 else 0
  (lines.drop start).take (lines.length - 1 - start)

/-- One pass of the `while 1` loop of `tailLines`, with explicit fuel for the
retry loop: seek to `avgcharsperline * linesback` characters before the end
(falling back to the start of the file when the seek fails), read to the end,
split on newlines, and retry with the estimate grown by 1.3 when too few
lines were found.  `none` models nontermination of the retry loop. -/
def tailStep (content : List Char) (linesback : Nat) : Nat → ℚ → Option (List (List Char))
  | 0, _ => none
  | fuel + 1, avg =>
    let k : Nat := (⌊avg * (linesback : ℚ)⌋).toNat
    let p : Nat := if k ≤ content.length then content.length - k else 0
    let lines := splitCh '\n' (content.drop p)
    if lines.length > linesback + 1 ∨ p = 0 then
      some (finalSlice lines linesback)
    else
      tailStep content linesback fuel (avg * (13 / 10))

/-- `tailLines(filename, linesback)` over the file's contents, starting from
the initial estimate `avgcharsperline = 150`. -/
def tailLines (content : List Char) (linesback : Nat) : Option (List (List Char)) :=
  tailStep content linesback (content.length + 1) 150

/-! ## getOverview -/

/-- The pattern `'\\"'` normalized away before quote-splitting. -/
def escQuote : List Char := "\\\"".toList

/-- Its replacement `'&quot;'`. -/
def quotEnt : List Char := "&quot;".toList

/-- The `.yahoo.` marker selecting the `p` query parameter. -/
def yahooMark : List Char := ".yahoo.".toList

/-- The generic `q` query-parameter name. -/
def qKey : List Char := ['q']

/-- The Yahoo-specific `p` query-parameter name. -/
def pKey : List Char := ['p']

/-- The query counted for a qualifying referrer:
`cgi.parse_qs(referrer.split("?")[-1])`, key `p` when the referrer mentions
`.yahoo.` and `q` otherwise, and the first value lower-cased.  `none` when the
looked-up value is missing or falsy (`if q:`). -/
def extractQuery (referrer : List Char) : Option (List Char) :=
  let querydict := parse_qs ((splitCh '?' referrer).getLastD [])
  let qv := if isSubstr yahooMark referrer then dictFind querydict pKey
            else dictFind querydict qKey
  match qv with
  | some (v :: _) => some (pyLower v)
  | _ => none

/-- The mutable state of the `for line in loglines` loop of `getOverview`.
`lastres` is `none` while the local variable is still unassigned. -/
structure LoopState where
  pagecount : Nat
  hits : List (List Char × Nat)
  lastres : Option (List Char)
  referrers : List (List Char × Option (List Char))
  queries : List (List Char × Nat)
deriving DecidableEq

/-- The state at the top of the loop. -/
def initLoop : LoopState := ⟨0, [], none, [], []⟩

/-- One iteration of the aggregation loop of `getOverview`:
`resource = line.split(' ')[6]` (IndexError when the line has fewer than seven
space-delimited tokens), the page / ignore test, count updates, and the
referrer and query bookkeeping.  `none` models an exception escaping. -/
def processLine (st : LoopState) (line : List Char) : Option LoopState :=
  match pyGet (splitCh ' ' line) 6 with
  | none => none
  | some resource =>
    if ispage resource && !ignoreB line then
      let line2 := pyReplace escQuote quotEnt line
      match pyGetNeg (splitCh '"' line2) 4 with
      | none => none
      | some referrer =>
        let st1 : LoopState :=
          ⟨st.pagecount + 1, dictIncr st.hits resource, some resource,
            st.referrers, st.queries⟩
        if decide (referrer.length > 1) && !isSubstr thisdomainL referrer then
          match extractQuery referrer with
          | some qlow =>
            some ⟨st1.pagecount, st1.hits, st1.lastres,
              st1.referrers ++ [(referrer, some qlow)], dictIncr st1.queries qlow⟩
          | none =>
            some ⟨st1.pagecount, st1.hits, st1.lastres,
              st1.referrers ++ [(referrer, none)], st1.queries⟩
        else some st1
    else some st

/-- The whole aggregation loop. -/
def overviewLoop : LoopState → List (List Char) → Option LoopState
  | st, [] => some st
  | st, l :: rest =>
    match processLine st l with
    | none => none
    | some st' => overviewLoop st' rest

/-- `timeSinceApacheDate`, with `time.mktime(time.strptime(...))` and
`time.mktime(time.localtime())` abstracted into the epoch-second arguments
`thenE` and `now`: `minutesSince = (now - then) / 60`,
`hours, minutes = divmod(minutesSince, 60)`, `return int(hours), int(minutes)`.
Written with integer floor division and remainder, which agree exactly with
the floating-point formulation on integral epoch seconds — the equivalence is
proved in `timeSinceApacheDate_eq_floor`. -/
def timeSinceApacheDate (thenE now : ℤ) : ℤ × ℤ :=
  ((now - thenE) / 3600, ((now - thenE) % 3600) / 60)

/-- The Overview dictionary built by `getOverview` (the constant `cgiloc` and
`logfile` entries are omitted). -/
structure Overview where
  totalhits : Nat
  timing : ℤ
  timeoffirsthit : List Char
  hits : List (List Char × Nat)
  lastrequest : List Char
  pagecount : Nat
  referrers : List (List Char × Option (List Char))
  queries : List (List Char × Nat)
  hourssince : ℤ
  minutessince : ℤ
  pagehitsperhour : ℤ
deriving DecidableEq

/-- `getOverview()`: `t0`/`t1` are the two `time.time()` readings, `now` is
`time.mktime(time.localtime())`, and `strpmk` models
`time.mktime(time.strptime(·, '%d/%b/%Y:%H:%M:%S'))` (an external library
call; `none` models `ValueError`).  The result is `none` whenever an
exception escapes: empty line set, a first line with fewer than four tokens,
a line with fewer than seven tokens, a page-hit line with fewer than four
quote-delimited fields, an unassigned `lastres`, an unparsable first
timestamp, or the `ZeroDivisionError` of
`pagecount / (hourssince + (float(minutessince) / 60))`, whose divisor is
zero exactly when `60 * hourssince + minutessince = 0`
(lemma `denom_zero_iff`). -/
def getOverview (t0 t1 : ℚ) (now : ℤ) (strpmk : List Char → Option ℤ)
    (loglines : List (List Char)) : Option Overview :=
  match loglines with
  | [] => none
  | first :: _ =>
    match pyGet (splitCh ' ' first) 3 with
    | none => none
    | some tok3 =>
      let timeoffirsthit := tok3.filter (fun c => c ≠ '[')
      match overviewLoop initLoop loglines with
      | none => none
      | some st =>
        match st.lastres with
        | none => none
        | some lastrequest =>
          match strpmk timeoffirsthit with
          | none => none
          | some thenE =>
            let hm := timeSinceApacheDate thenE now
            if 60 * hm.1 + hm.2 = 0 then none
            else
              some ⟨loglines.length, ratTrunc ((t1 - t0) * 1000), timeoffirsthit,
                st.hits, lastrequest, st.pagecount, st.referrers, st.queries,
                hm.1, hm.2,
                pyRound ((st.pagecount : ℚ) / ((hm.1 : ℚ) + (hm.2 : ℚ) / 60))⟩

/-! ## Pure per-line views used to state the aggregation properties -/

/-- The seventh space-delimited token of a line (the requested resource);
arbitrary default for lines on which the live code would raise. -/
def resourceOfD (l : List Char) : List Char := (pyGet (splitCh ' ' l) 6).getD []

/-- The page-hit predicate of the aggregator:
`ispage(resource) and not ignorelines(line)`. -/
def isPageHitB (l : List Char) : Bool := ispage (resourceOfD l) && !ignoreB l

/-- The (referrer, query) pair a page-hit line appends to the referrer list:
`none` when the referrer is empty/one character or from the site's own
domain, or when the quote-split would raise. -/
def refPairOf (line : List Char) : Option (List Char × Option (List Char)) :=
  match pyGetNeg (splitCh '"' (pyReplace escQuote quotEnt line)) 4 with
  | none => none
  | some referrer =>
    if decide (referrer.length > 1) && !isSubstr thisdomainL referrer then
      some (referrer, extractQuery referrer)
    else none

/-- The ordered referrer list produced by one pass over `lines`. -/
def referrersOfLines (lines : List (List Char)) :
    List (List Char × Option (List Char)) :=
  (lines.filter isPageHitB).filterMap refPairOf

/-- The per-resource hit counts produced by one pass over `lines`. -/
def hitsFoldFrom (d : List (List Char × Nat)) (lines : List (List Char)) :
    List (List Char × Nat) :=
  ((lines.filter isPageHitB).map resourceOfD).foldl dictIncr d

/-- The search-query counts produced by one pass over `lines`. -/
def queriesFoldFrom (d : List (List Char × Nat)) (lines : List (List Char)) :
    List (List Char × Nat) :=
  ((referrersOfLines lines).filterMap Prod.snd).foldl dictIncr d

/-! ## getDNS and ipdetails -/

/-- The dbm store, as the key-value map it holds. -/
def Db := List (List Char × List Char)

/-- Lookup in the dbm store (`has_key` plus `db[ip]`). -/
def dbGet (db : Db) (k : List Char) : Option (List Char) := dictFind db k

/-- Store one entry (`db[ip] = addr`). -/
def dbSet (db : Db) (k v : List Char) : Db :=
  match db with
  | [] => [(k, v)]
  | (k', v') :: rest => if k' = k then (k, v) :: rest else (k', v') :: dbSet rest k v

/-- `getDNS(ip)`: `openRes` is the outcome of `dbm.open` (`none` when it
raises) and `closeOk` whether `db.close()` succeeds; any exception inside the
`try` block falls back to `addr = ip` (when `close` raises, `addr` has
already been assigned but the handler overwrites it with `ip`). -/
def getDNS (openRes : Option Db) (closeOk : Bool) (ip : List Char) : List Char :=
  match openRes with
  | none => ip
  | some db =>
    let addr := match dbGet db ip with
      | some a => a
      | none => ip
    if closeOk then addr else ip

/-- The string Python prints for a failed `socket.gethostbyaddr`. -/
def unknownHost : List Char := "unknown host".toList

/-- The mutable state of the `for line in loglines` loop of `ipdetails`:
the all-hits counter, the separate page-hit counter, the referrer and
truncated user agent captured at the first hit, and the printed page rows
(page counter, timestamp, resource). -/
structure IpState where
  counter : Nat
  pagecounter : Nat
  firstReferrer : Option (List Char)
  firstAgent : Option (List Char)
  rows : List (Nat × List Char × List Char)
deriving DecidableEq

/-- The state at the top of the `ipdetails` loop: `counter = 1`,
`pagecounter = 1`. -/
def initIp : IpState := ⟨1, 1, none, none, []⟩

/-- The user-agent truncation of `ipdetails`:
`if len(user_agent) > 50: user_agent = user_agent[0:50].strip() + "..."`. -/
def truncAgent (ua : List Char) : List Char :=
  if ua.length > 50 then pyStrip (ua.take 50) ++ "...".toList else ua

/-- The timestamp printed by `ipdetails` (and `urldetails`):
`line.split(' ')[3].replace('[','')` with the leading `apachetoday + ':'`
replaced by `'today, '` when the line is from today. -/
def todayTime (apachetoday tok3 : List Char) : List Char :=
  let time := tok3.filter (fun c => c ≠ '[')
  if apachetoday.isPrefixOf time then
    pyReplace (apachetoday ++ [':']) "today, ".toList time
  else time

/-- One iteration of the `ipdetails` loop: lines whose first token is not the
queried address are skipped; for a matching line the timestamp and resource
are extracted (IndexError when tokens are missing), the first match also
extracts referrer and user agent from the quote-split (no escaped-quote
normalization here), and page resources are numbered by `pagecounter`. -/
def ipProcessLine (apachetoday ip : List Char) (st : IpState) (line : List Char) :
    Option IpState :=
  match pyGet (splitCh ' ' line) 0 with
  | none => none
  | some address =>
    if address = ip then
      match pyGet (splitCh ' ' line) 3 with
      | none => none
      | some tok3 =>
        let time := todayTime apachetoday tok3
        match pyGet (splitCh ' ' line) 6 with
        | none => none
        | some resource =>
          let step2 := fun (stA : IpState) =>
            let stB := if ispage resource then
                { stA with
                  rows := stA.rows ++ [(stA.pagecounter, time, resource)],
                  pagecounter := stA.pagecounter + 1 }
              else stA
            some { stB with counter := stB.counter + 1 }
          if st.counter = 1 then
            match pyGetNeg (splitCh '"' line) 4 with
            | none => none
            | some referrer =>
              match pyGetNeg (splitCh '"' line) 2 with
              | none => none
              | some user_agent =>
                step2 { st with
                  firstReferrer := if referrer.length > 1 then some referrer else none,
                  firstAgent := some (truncAgent user_agent) }
          else step2 st
    else some st

/-- The whole `ipdetails` loop. -/
def ipLoop (apachetoday ip : List Char) : IpState → List (List Char) → Option IpState
  | st, [] => some st
  | st, l :: rest =>
    match ipProcessLine apachetoday ip st l with
    | none => none
    | some st' => ipLoop apachetoday ip st' rest

/-- The report part of `ipdetails(ip, cgiloc)`: the resolved hostname heading
and the loop state at the end (`none` when the loop raised). -/
structure IpReport where
  addr : List Char
  details : Option IpState
deriving DecidableEq

/-- `ipdetails(ip, cgiloc)`: `lookupRes` is the outcome of
`socket.gethostbyaddr(ip)[0]` (`none` when it raises), `db` the content of the
dbm store if it opens (`none` when `dbm.open` raises — the `except: pass`
swallows the failure).  Returns the rendered report and the resulting cache
store. -/
def ipdetails (lookupRes : Option (List Char)) (db : Option Db)
    (apachetoday ip : List Char) (loglines : List (List Char)) :
    IpReport × Option Db :=
  let addr := match lookupRes with
    | some a => a
    | none => unknownHost
  let db2 := if addr ≠ unknownHost then
      match db with
      | some d => some (dbSet d ip addr)
      | none => none
    else db
  (⟨addr, ipLoop apachetoday ip initIp loglines⟩, db2)

/-! ## Pure per-line views used to state the detail-view properties -/

/-- The first space-delimited token of a line (the client address). -/
def addrOfD (l : List Char) : List Char := (pyGet (splitCh ' ' l) 0).getD []

/-- Whether a line's client address equals the queried address. -/
def ipMatchB (ip l : List Char) : Bool := addrOfD l = ip

/-- The fourth token with brackets removed and the today-replacement applied;
the timestamp `ipdetails` prints. -/
def todayTimeOfD (apachetoday l : List Char) : List Char :=
  todayTime apachetoday ((pyGet (splitCh ' ' l) 3).getD [])

/-- The second-to-last quote-delimited field of a raw line (the user agent);
arbitrary default where the live code would raise. -/
def uaOfD (l : List Char) : List Char := (pyGetNeg (splitCh '"' l) 2).getD []

/-- The fourth-from-last quote-delimited field of a raw line (the referrer);
arbitrary default where the live code would raise. -/
def refOfD (l : List Char) : List Char := (pyGetNeg (splitCh '"' l) 4).getD []

/-- The matching page-hit lines of `ipdetails`: lines from the queried
address whose resource is a page. -/
def pageMatched (ip : List Char) (lines : List (List Char)) : List (List Char) :=
  (lines.filter (ipMatchB ip)).filter (fun l => ispage (resourceOfD l))

/-- The page rows `ipdetails` prints, numbered consecutively from `pc`. -/
def numberRows (apachetoday : List Char) : Nat → List (List Char) →
    List (Nat × List Char × List Char)
  | _, [] => []
  | pc, l :: rest =>
    (pc, todayTimeOfD apachetoday l, resourceOfD l) :: numberRows apachetoday (pc + 1) rest

/-! ## Spec-side view of justdomain -/

/-- The two-character separator of `justdomain`. -/
def dslashPat : List Char := ['/', '/']

/-- Modelled from the claim's wording, for comparison with `justdomain`: the
text after the first occurrence of `'//'` (`none` when there is none). -/
def afterDslash : List Char → Option (List Char)
  | [] => none
  | [_] => none
  | c :: d :: rest => if c = '/' ∧ d = '/' then some rest else afterDslash (d :: rest)

/-! ## Concrete log data used by the closed evaluation theorems -/

/-- A well-formed combined-format page-hit line with a search referrer. -/
def goodLineC : List Char :=
  ("1.2.3.4 - - [12/Oct/2026:10:00:00 +0000] \"GET /docs/ HTTP/1.1\" 200 123 " ++
    "\"http://www.google.com/search?q=Django+Book\" \"Mozilla/5.0\"").toList

/-- A well-formed page-hit line whose referrer is the site's own domain. -/
def ownRefLineC : List Char :=
  ("5.6.7.8 - - [12/Oct/2026:10:05:00 +0000] \"GET /docs/ HTTP/1.1\" 200 123 " ++
    "\"http://www.djangobook.com/\" \"Mozilla/5.0\"").toList

/-- A well-formed non-page line (a stylesheet request with an empty referrer). -/
def nonPageLineC : List Char :=
  "5.6.7.8 - - [12/Oct/2026:10:06:00 +0000] \"GET /style.css HTTP/1.1\" 200 12 \"-\" \"Mozilla/5.0\"".toList

/-- A line with fewer than seven space-delimited tokens. -/
def shortLineC : List Char := "short line".toList

/-- The timestamp token of `goodLineC`, as `getOverview` extracts it. -/
def tfhC : List Char := "12/Oct/2026:10:00:00".toList

/-- A concrete stand-in for `time.mktime(time.strptime(...))`: the first
timestamp of the concrete lines parses to epoch second 1000. -/
def strpmkC : List Char → Option ℤ := fun t => if t = tfhC then some 1000 else none

/-- A 60-character user agent (no whitespace anywhere). -/
def agent60C : List Char := List.replicate 60 'A'

/-- A line from address 9.9.9.9 whose user agent is the 60-character
`agent60C` and whose referrer is the single character `-`. -/
def ipLineC : List Char :=
  ("9.9.9.9 - - [12/Oct/2026:10:00:00 +0000] \"GET /docs/ HTTP/1.1\" 200 1 \"-\" \"" ++
    String.mk agent60C ++ "\"").toList

/-- A second line from 9.9.9.9 requesting a non-page resource. -/
def ipLine2C : List Char :=
  "9.9.9.9 - - [12/Oct/2026:10:01:00 +0000] \"GET /img.png HTTP/1.1\" 200 1 \"-\" \"B\"".toList

/-- A third line from 9.9.9.9 requesting a page. -/
def ipLine3C : List Char :=
  "9.9.9.9 - - [12/Oct/2026:10:02:00 +0000] \"GET /about/ HTTP/1.1\" 200 1 \"-\" \"B\"".toList

/-! ## Lemmas about splitCh -/

theorem splitCh_nil (sep : Char) : splitCh sep [] = [[]] := rfl

theorem splitCh_cons (sep c : Char) (rest : List Char) :
    splitCh sep (c :: rest) =
      if c = sep then [] :: splitCh sep rest
      else
        match splitCh sep rest with
        | [] => [[c]]
        | h :: t => (c :: h) :: t := rfl

theorem splitCh_ne_nil (sep : Char) (s : List Char) : splitCh sep s ≠ [] := by
  cases s with
  | nil => simp [splitCh]
  | cons c rest =>
    rw [splitCh_cons]
    split
    · simp
    · split <;> simp

theorem splitCh_sepfree_append (sep : Char) (s t : List Char)
    (h : ∀ x ∈ s, x ≠ sep) :
    ∃ hd tl, splitCh sep t = hd :: tl ∧ splitCh sep (s ++ t) = (s ++ hd) :: tl := by
  induction s with
  | nil =>
    cases he : splitCh sep t with
    | nil => exact absurd he (splitCh_ne_nil sep t)
    | cons a b => exact ⟨a, b, rfl, by simpa using he⟩
  | cons c s ih =>
    have hc : c ≠ sep := h c (by simp)
    obtain ⟨hd, tl, ht, hst⟩ := ih (fun x hx => h x (by simp [hx]))
    refine ⟨hd, tl, ht, ?_⟩
    rw [List.cons_append, splitCh_cons, if_neg hc, hst]
    rfl

theorem mkLog_nil : mkLog [] = [] := rfl

theorem mkLog_cons (l : List Char) (ls : List (List Char)) :
    mkLog (l :: ls) = l ++ '\n' :: mkLog ls := by
  simp [mkLog]

theorem splitCh_mkLog (ls : List (List Char)) (h : ∀ l ∈ ls, '\n' ∉ l) :
    splitCh '\n' (mkLog ls) = ls ++ [[]] := by
  induction ls with
  | nil => simp [mkLog, splitCh]
  | cons l ls ih =>
    have hl : ∀ x ∈ l, x ≠ '\n' := fun x hx hxe => (h l (by simp)) (hxe ▸ hx)
    have hrest := ih (fun m hm => h m (by simp [hm]))
    obtain ⟨hd, tl, ht, hst⟩ := splitCh_sepfree_append '\n' l ('\n' :: mkLog ls) hl
    have ht' : hd :: tl = [] :: (ls ++ [[]]) := by
      rw [← ht, splitCh_cons, if_pos rfl, hrest]
    injection ht' with e1 e2
    rw [mkLog_cons, hst, e1, e2]
    simp

theorem drop_mkLog (ls : List (List Char)) (hnl : ∀ l ∈ ls, '\n' ∉ l) (p : Nat)
    (hp : p ≤ (mkLog ls).length) :
    (p = (mkLog ls).length ∧ (mkLog ls).drop p = []) ∨
    ∃ s suf, suf <:+ ls ∧ '\n' ∉ s ∧ (∀ l ∈ suf, '\n' ∉ l) ∧
      (mkLog ls).drop p = mkLog (s :: suf) ∧ (p = 0 → s :: suf = ls) := by
  induction ls generalizing p with
  | nil =>
    left
    have h0 : p = 0 := by simpa [mkLog] using hp
    subst h0
    simp [mkLog]
  | cons l ls ih =>
    rw [mkLog_cons] at hp ⊢
    by_cases hle : p ≤ l.length
    · right
      refine ⟨l.drop p, ls, List.suffix_cons l ls, ?_, ?_, ?_, ?_⟩
      · intro hmem; exact (hnl l (by simp)) (List.drop_subset p l hmem)
      · intro m hm; exact hnl m (by simp [hm])
      · rw [List.drop_append_eq_append_drop]
        have h0 : p - l.length = 0 := by omega
        rw [h0, mkLog_cons]
        simp
      · intro hp0; subst hp0; simp
    · push_neg at hle
      have hlen : (l ++ '\n' :: mkLog ls).length = l.length + 1 + (mkLog ls).length := by
        simp; omega
      have hp' : p - (l.length + 1) ≤ (mkLog ls).length := by
        rw [hlen] at hp; omega
      have hdrop : (l ++ '\n' :: mkLog ls).drop p = (mkLog ls).drop (p - (l.length + 1)) := by
        rw [List.drop_append_eq_append_drop]
        have h1 : l.drop p = [] := by
          apply List.drop_eq_nil_of_le; omega
        have h2 : p - l.length = (p - (l.length + 1)) + 1 := by omega
        rw [h1, h2, List.drop_succ_cons]
        simp
      rcases ih (fun m hm => hnl m (by simp [hm])) (p - (l.length + 1)) hp' with
        ⟨hpe, hde⟩ | ⟨s, suf, hsuf, hs, hsufnl, heq, _⟩
      · left
        constructor
        · rw [hlen]; omega
        · rw [hdrop, hde]
      · right
        exact ⟨s, suf, hsuf.trans (List.suffix_cons l ls), hs, hsufnl,
          by rw [hdrop, heq], fun hp0 => absurd hp0 (by omega)⟩

theorem drop_last_of_sfx {suf ls : List (List Char)} (h : suf <:+ ls) {N : Nat}
    (hN : N ≤ suf.length) :
    suf.drop (suf.length - N) = ls.drop (ls.length - N) := by
  obtain ⟨t, rfl⟩ := h
  rw [List.drop_append_eq_append_drop]
  have h1 : t.drop ((t ++ suf).length - N) = [] := by
    apply List.drop_eq_nil_of_le; simp; omega
  have h2 : (t ++ suf).length - N - t.length = suf.length - N := by simp; omega
  rw [h1, h2]
  simp

theorem finalSlice_full (ls : List (List Char)) (N : Nat) :
    finalSlice (ls ++ [[]]) N = ls.drop (ls.length - N) := by
  simp only [finalSlice, List.length_append, List.length_cons, List.length_nil]
  by_cases hge : N ≤ ls.length
  · rw [if_pos (by omega)]
    have hstart : ls.length + (0 + 1) - N - 1 = ls.length - N := by omega
    rw [hstart, List.drop_append_eq_append_drop]
    have h0 : ls.length - N - ls.length = 0 := by omega
    rw [h0, List.drop_zero]
    have htk : ls.length + (0 + 1) - 1 - (ls.length - N) = N := by omega
    rw [htk, List.take_append_eq_append_take]
    have hlen2 : (ls.drop (ls.length - N)).length = N := by
      rw [List.length_drop]; omega
    rw [List.take_of_length_le (le_of_eq hlen2), hlen2]
    simp
  · rw [if_neg (by omega)]
    have hdz : ls.length - N = 0 := by omega
    rw [hdz, List.drop_zero, List.drop_zero]
    have htk : ls.length + (0 + 1) - 1 - 0 = ls.length := by omega
    rw [htk, List.take_append_eq_append_take, List.take_length]
    simp

theorem finalSlice_part (s : List Char) (suf : List (List Char)) (N : Nat)
    (hN : N ≤ suf.length) :
    finalSlice (s :: (suf ++ [[]])) N = suf.drop (suf.length - N) := by
  simp only [finalSlice, List.length_cons, List.length_append, List.length_nil]
  rw [if_pos (by omega)]
  have hstart : suf.length + (0 + 1) + 1 - N - 1 = (suf.length - N) + 1 := by omega
  rw [hstart, List.drop_succ_cons, List.drop_append_eq_append_drop]
  have h0 : suf.length - N - suf.length = 0 := by omega
  rw [h0, List.drop_zero]
  have htk : suf.length + (0 + 1) + 1 - 1 - (suf.length - N + 1) = N := by omega
  rw [htk, List.take_append_eq_append_take]
  have hlen2 : (suf.drop (suf.length - N)).length = N := by
    rw [List.length_drop]; omega
  rw [List.take_of_length_le (le_of_eq hlen2), hlen2]
  simp

/-! ## Termination and correctness of the tailLines retry loop -/

theorem floor_est_ge (avg : ℚ) (N : Nat) (h150 : (150 : ℚ) ≤ avg) (hN : 1 ≤ N) :
    150 ≤ (⌊avg * (N : ℚ)⌋).toNat := by
  have hNq : (1 : ℚ) ≤ (N : ℚ) := by exact_mod_cast hN
  have h : (150 : ℤ) ≤ ⌊avg * (N : ℚ)⌋ := by
    rw [Int.le_floor]
    push_cast
    nlinarith
  omega

theorem floor_est_growth (avg : ℚ) (N : Nat) (h150 : (150 : ℚ) ≤ avg) (hN : 1 ≤ N) :
    ⌊avg * (N : ℚ)⌋ + 45 ≤ ⌊avg * (13 / 10) * (N : ℚ)⌋ := by
  have hNq : (1 : ℚ) ≤ (N : ℚ) := by exact_mod_cast hN
  have h1 : avg * (N : ℚ) + ((45 : ℤ) : ℚ) ≤ avg * (13 / 10) * (N : ℚ) := by
    push_cast
    nlinarith
  calc ⌊avg * (N : ℚ)⌋ + 45 = ⌊avg * (N : ℚ) + ((45 : ℤ) : ℚ)⌋ :=
        (Int.floor_add_int _ 45).symm
    _ ≤ ⌊avg * (13 / 10) * (N : ℚ)⌋ := Int.floor_mono h1

theorem tailStep_break (ls : List (List Char)) (N fuel : Nat) (avg : ℚ)
    (hnl : ∀ l ∈ ls, '\n' ∉ l)
    (hk : (mkLog ls).length ≤ (⌊avg * (N : ℚ)⌋).toNat) :
    tailStep (mkLog ls) N (fuel + 1) avg = some (ls.drop (ls.length - N)) := by
  simp only [tailStep]
  have hp : (if (⌊avg * (N : ℚ)⌋).toNat ≤ (mkLog ls).length then
      (mkLog ls).length - (⌊avg * (N : ℚ)⌋).toNat else 0) = 0 := by
    split <;> omega
  rw [hp, if_pos (Or.inr rfl), List.drop_zero, splitCh_mkLog ls hnl,
    finalSlice_full]

theorem tailStep_correct (ls : List (List Char)) (N : Nat) (hN : 1 ≤ N)
    (hnl : ∀ l ∈ ls, '\n' ∉ l) :
    ∀ fuel avg, (150 : ℚ) ≤ avg →
      (mkLog ls).length ≤ 45 * fuel + (⌊avg * (N : ℚ)⌋).toNat →
      tailStep (mkLog ls) N (fuel + 1) avg = some (ls.drop (ls.length - N)) := by
  intro fuel
  induction fuel with
  | zero =>
    intro avg h150 hlen
    exact tailStep_break ls N 0 avg hnl (by omega)
  | succ m ih =>
    intro avg h150 hlen
    by_cases hbig : (mkLog ls).length ≤ (⌊avg * (N : ℚ)⌋).toNat
    · exact tailStep_break ls N (m + 1) avg hnl hbig
    · push_neg at hbig
      have hk150 : 150 ≤ (⌊avg * (N : ℚ)⌋).toNat := floor_est_ge avg N h150 hN
      simp only [tailStep]
      have hif : (if (⌊avg * (N : ℚ)⌋).toNat ≤ (mkLog ls).length then
          (mkLog ls).length - (⌊avg * (N : ℚ)⌋).toNat else 0) =
          (mkLog ls).length - (⌊avg * (N : ℚ)⌋).toNat := if_pos (by omega)
      rw [hif]
      have hp_pos : 0 < (mkLog ls).length - (⌊avg * (N : ℚ)⌋).toNat := by omega
      have hp_lt : (mkLog ls).length - (⌊avg * (N : ℚ)⌋).toNat < (mkLog ls).length := by
        omega
      rcases drop_mkLog ls hnl ((mkLog ls).length - (⌊avg * (N : ℚ)⌋).toNat) (by omega) with
        ⟨hpe, _⟩ | ⟨s, suf, hsuf, hs, hsufnl, heq, _⟩
      · omega
      · have hsnl : ∀ l ∈ s :: suf, '\n' ∉ l := by
          intro l hl
          rcases List.mem_cons.mp hl with rfl | hl2
          · exact hs
          · exact hsufnl l hl2
        have hsplit : splitCh '\n' ((mkLog ls).drop
            ((mkLog ls).length - (⌊avg * (N : ℚ)⌋).toNat)) = s :: (suf ++ [[]]) := by
          rw [heq, splitCh_mkLog (s :: suf) hsnl]
          simp
        rw [hsplit]
        by_cases hbrk : N ≤ suf.length
        · rw [if_pos (Or.inl (by simp; omega))]
          rw [finalSlice_part s suf N hbrk, drop_last_of_sfx hsuf hbrk]
        · rw [if_neg (by
            push_neg
            constructor
            · simp; omega
            · omega)]
          apply ih
          · nlinarith
          · have hg := floor_est_growth avg N h150 hN
            have hnn : (0 : ℤ) ≤ ⌊avg * (N : ℚ)⌋ := by omega
            have hnn2 : (0 : ℤ) ≤ ⌊avg * (13 / 10) * (N : ℚ)⌋ := by omega
            omega

theorem tailLines_mkLog (ls : List (List Char)) (N : Nat) (hN : 1 ≤ N)
    (hnl : ∀ l ∈ ls, '\n' ∉ l) :
    tailLines (mkLog ls) N = some (ls.drop (ls.length - N)) := by
  unfold tailLines
  apply tailStep_correct ls N hN hnl (mkLog ls).length 150 (by norm_num)
  have : ((150 : ℚ) * (N : ℚ)) = ((150 * N : ℕ) : ℚ) := by push_cast; ring
  rw [this, Int.floor_natCast]
  have : ((150 * N : ℕ) : ℤ).toNat = 150 * N := by omega
  rw [this]
  omega

/-- C3: for every log file with at least `N` lines (`N ≥ 1` requested, each
line newline-terminated and newline-free), `tailLines` returns exactly the
last `N` lines in their original order; for every log file with fewer than
`N` lines it returns exactly all of the file's lines, none duplicated and
none omitted. -/
theorem tailLines_returns_last_lines (ls : List (List Char)) (N : Nat)
    (hN : 1 ≤ N) (hnl : ∀ l ∈ ls, '\n' ∉ l) :
    (N ≤ ls.length → tailLines (mkLog ls) N = some (ls.drop (ls.length - N))) ∧
    (ls.length < N → tailLines (mkLog ls) N = some ls) := by
  constructor
  · intro _
    exact tailLines_mkLog ls N hN hnl
  · intro hlt
    have h := tailLines_mkLog ls N hN hnl
    rwa [Nat.sub_eq_zero_of_le (le_of_lt hlt), List.drop_zero] at h

/-- Witness for C3 at concrete three-line files, for both regimes. -/
theorem tailLines_returns_last_lines_witness :
    tailLines (mkLog ["aa".toList, "bb".toList, "cc".toList]) 2 =
      some ["bb".toList, "cc".toList] ∧
    tailLines (mkLog ["aa".toList, "bb".toList, "cc".toList]) 5 =
      some ["aa".toList, "bb".toList, "cc".toList] := by
  constructor
  · exact (tailLines_returns_last_lines ["aa".toList, "bb".toList, "cc".toList] 2
      (by decide) (by decide)).1 (by decide)
  · exact (tailLines_returns_last_lines ["aa".toList, "bb".toList, "cc".toList] 5
      (by decide) (by decide)).2 (by decide)

/-! ## Characterization of the getOverview aggregation loop -/

theorem isPageHitB_of_ignore {l : List Char} (h : ignoreB l = true) :
    isPageHitB l = false := by
  simp [isPageHitB, h]

theorem hitsFoldFrom_cons_pos {l : List Char} (h : isPageHitB l = true)
    (d : List (List Char × Nat)) (rest : List (List Char)) :
    hitsFoldFrom d (l :: rest) = hitsFoldFrom (dictIncr d (resourceOfD l)) rest := by
  simp [hitsFoldFrom, List.filter_cons, h]

theorem hitsFoldFrom_cons_neg {l : List Char} (h : isPageHitB l = false)
    (d : List (List Char × Nat)) (rest : List (List Char)) :
    hitsFoldFrom d (l :: rest) = hitsFoldFrom d rest := by
  simp [hitsFoldFrom, List.filter_cons, h]

theorem referrersOfLines_cons_pos_some {l : List Char} {ref : List Char}
    {q : Option (List Char)} (h : isPageHitB l = true)
    (hr : refPairOf l = some (ref, q)) (rest : List (List Char)) :
    referrersOfLines (l :: rest) = (ref, q) :: referrersOfLines rest := by
  simp [referrersOfLines, List.filter_cons, h, List.filterMap_cons, hr]

theorem referrersOfLines_cons_pos_none {l : List Char} (h : isPageHitB l = true)
    (hr : refPairOf l = none) (rest : List (List Char)) :
    referrersOfLines (l :: rest) = referrersOfLines rest := by
  simp [referrersOfLines, List.filter_cons, h, List.filterMap_cons, hr]

theorem referrersOfLines_cons_neg {l : List Char} (h : isPageHitB l = false)
    (rest : List (List Char)) :
    referrersOfLines (l :: rest) = referrersOfLines rest := by
  simp [referrersOfLines, List.filter_cons, h]

theorem queriesFoldFrom_eq (d : List (List Char × Nat)) (lines : List (List Char)) :
    queriesFoldFrom d lines =
      ((referrersOfLines lines).filterMap Prod.snd).foldl dictIncr d := rfl

theorem processLine_some (st : LoopState) (l : List Char) (st' : LoopState)
    (h : processLine st l = some st') :
    (isPageHitB l = false ∧ st' = st) ∨
    (isPageHitB l = true ∧ refPairOf l = none ∧
      st' = ⟨st.pagecount + 1, dictIncr st.hits (resourceOfD l),
        some (resourceOfD l), st.referrers, st.queries⟩) ∨
    (∃ ref q, isPageHitB l = true ∧ refPairOf l = some (ref, q) ∧
      st' = ⟨st.pagecount + 1, dictIncr st.hits (resourceOfD l),
        some (resourceOfD l), st.referrers ++ [(ref, q)],
        match q with
        | some qs => dictIncr st.queries qs
        | none => st.queries⟩) := by
  unfold processLine at h
  split at h
  · exact absurd h (by simp)
  · rename_i resource hres
    have hrd : resourceOfD l = resource := by simp [resourceOfD, hres]
    split at h
    · rename_i hpage
      have hph : isPageHitB l = true := by rw [isPageHitB, hrd]; exact hpage
      dsimp only at h
      split at h
      · exact absurd h (by simp)
      · rename_i referrer hneg
        split at h
        · rename_i hcond
          right; right
          split at h
          · rename_i qlow hq
            injection h with h2
            exact ⟨referrer, some qlow, hph,
              by simp [refPairOf, hneg, hcond, hq],
              by rw [← h2, hrd]⟩
          · rename_i hq
            injection h with h2
            exact ⟨referrer, none, hph,
              by simp [refPairOf, hneg, hcond, hq],
              by rw [← h2, hrd]⟩
        · rename_i hcond
          right; left
          injection h with h2
          refine ⟨hph, ?_, by rw [← h2, hrd]⟩
          simp only [refPairOf, hneg]
          rw [if_neg hcond]
    · rename_i hpage
      left
      injection h with h2
      refine ⟨?_, h2.symm⟩
      rw [isPageHitB, hrd]
      simpa using hpage

theorem queriesFoldFrom_cons_some {l ref : List Char} {qs : List Char}
    (hp : isPageHitB l = true) (hr : refPairOf l = some (ref, some qs))
    (d : List (List Char × Nat)) (rest : List (List Char)) :
    queriesFoldFrom d (l :: rest) = queriesFoldFrom (dictIncr d qs) rest := by
  simp [queriesFoldFrom, referrersOfLines_cons_pos_some hp hr, List.filterMap_cons]

theorem queriesFoldFrom_cons_none {l ref : List Char}
    (hp : isPageHitB l = true) (hr : refPairOf l = some (ref, none))
    (d : List (List Char × Nat)) (rest : List (List Char)) :
    queriesFoldFrom d (l :: rest) = queriesFoldFrom d rest := by
  simp [queriesFoldFrom, referrersOfLines_cons_pos_some hp hr, List.filterMap_cons]

theorem queriesFoldFrom_cons_nopair {l : List Char}
    (hp : isPageHitB l = true) (hr : refPairOf l = none)
    (d : List (List Char × Nat)) (rest : List (List Char)) :
    queriesFoldFrom d (l :: rest) = queriesFoldFrom d rest := by
  simp [queriesFoldFrom, referrersOfLines_cons_pos_none hp hr]

theorem queriesFoldFrom_cons_neg {l : List Char} (hp : isPageHitB l = false)
    (d : List (List Char × Nat)) (rest : List (List Char)) :
    queriesFoldFrom d (l :: rest) = queriesFoldFrom d rest := by
  simp [queriesFoldFrom, referrersOfLines_cons_neg hp]

theorem lastres_step (l : List Char) (rest : List (List Char))
    (v : Option (List Char)) (hl : isPageHitB l = true) :
    (match ((l :: rest).filter isPageHitB).getLast? with
      | some m => some (resourceOfD m)
      | none => v) =
    (match (rest.filter isPageHitB).getLast? with
      | some m => some (resourceOfD m)
      | none => some (resourceOfD l)) := by
  rw [List.filter_cons, if_pos hl]
  cases hxs : rest.filter isPageHitB with
  | nil => simp
  | cons x t => simp [List.getLast?_cons]

theorem overviewLoop_some (lines : List (List Char)) :
    ∀ st st', overviewLoop st lines = some st' →
      st'.pagecount = st.pagecount + lines.countP isPageHitB ∧
      st'.hits = hitsFoldFrom st.hits lines ∧
      st'.lastres = (match (lines.filter isPageHitB).getLast? with
        | some m => some (resourceOfD m)
        | none => st.lastres) ∧
      st'.referrers = st.referrers ++ referrersOfLines lines ∧
      st'.queries = queriesFoldFrom st.queries lines := by
  induction lines with
  | nil =>
    intro st st' h
    injection h with h2
    subst h2
    simp [hitsFoldFrom, referrersOfLines, queriesFoldFrom]
  | cons l rest ih =>
    intro st st' h
    rw [overviewLoop] at h
    cases hpl : processLine st l with
    | none => rw [hpl] at h; exact absurd h (by simp)
    | some st1 =>
      rw [hpl] at h
      obtain ⟨hpc, hh, hlr, hrf, hq⟩ := ih st1 st' h
      rcases processLine_some st l st1 hpl with ⟨hpf, rfl⟩ |
        ⟨hpt, hrp, h1⟩ | ⟨ref, q, hpt, hrp, h1⟩
      · refine ⟨?_, ?_, ?_, ?_, ?_⟩
        · rw [hpc, List.countP_cons, hpf]; simp
        · rw [hh, hitsFoldFrom_cons_neg hpf]
        · rw [hlr, List.filter_cons, if_neg (by simp [hpf])]
        · rw [hrf, referrersOfLines_cons_neg hpf]
        · rw [hq, queriesFoldFrom_cons_neg hpf]
      · subst h1
        refine ⟨?_, ?_, ?_, ?_, ?_⟩
        · rw [hpc]; rw [List.countP_cons, hpt]; simp; omega
        · rw [hh, hitsFoldFrom_cons_pos hpt]
        · rw [hlr, lastres_step l rest _ hpt]
        · rw [hrf, referrersOfLines_cons_pos_none hpt hrp]
        · rw [hq, queriesFoldFrom_cons_nopair hpt hrp]
      · subst h1
        cases q with
        | some qs =>
          refine ⟨?_, ?_, ?_, ?_, ?_⟩
          · rw [hpc]; rw [List.countP_cons, hpt]; simp; omega
          · rw [hh, hitsFoldFrom_cons_pos hpt]
          · rw [hlr, lastres_step l rest _ hpt]
          · rw [hrf, referrersOfLines_cons_pos_some hpt hrp]; simp
          · rw [hq, queriesFoldFrom_cons_some hpt hrp]
        | none =>
          refine ⟨?_, ?_, ?_, ?_, ?_⟩
          · rw [hpc]; rw [List.countP_cons, hpt]; simp; omega
          · rw [hh, hitsFoldFrom_cons_pos hpt]
          · rw [hlr, lastres_step l rest _ hpt]
          · rw [hrf, referrersOfLines_cons_pos_some hpt hrp]; simp
          · rw [hq, queriesFoldFrom_cons_none hpt hrp]

theorem getOverview_some (t0 t1 : ℚ) (now : ℤ) (strpmk : List Char → Option ℤ)
    (lines : List (List Char)) (o : Overview)
    (h : getOverview t0 t1 now strpmk lines = some o) :
    overviewLoop initLoop lines =
      some ⟨o.pagecount, o.hits, some o.lastrequest, o.referrers, o.queries⟩ ∧
    o.totalhits = lines.length := by
  unfold getOverview at h
  split at h
  · exact absurd h (by simp)
  · rename_i first tail
    split at h
    · exact absurd h (by simp)
    · rename_i tok3 h3
      dsimp only at h
      split at h
      · exact absurd h (by simp)
      · rename_i st hlp
        split at h
        · exact absurd h (by simp)
        · rename_i lastreq hlast
          split at h
          · exact absurd h (by simp)
          · rename_i thenE hsm
            split at h
            · exact absurd h (by simp)
            · injection h with h2
              subst h2
              constructor
              · rw [hlp]
                cases st with
                | mk pc hits lr refs qs =>
                  simp only at hlast ⊢
                  rw [hlast]
              · simp

/-- C4: in the Overview produced by one aggregation pass, `pagecount` equals
the number of lines whose resource matches the is-page pattern and which do
not match the ignore pattern, each counted exactly once (and the per-resource
and query counts are likewise the one-pass folds over exactly those lines);
and a line matching the ignore pattern contributes to no per-resource count,
no pagecount and no query count: deleting it from the line set leaves all
three unchanged. -/
theorem overview_counts_ignore (t0 t1 : ℚ) (now : ℤ) (strpmk : List Char → Option ℤ)
    (lines : List (List Char)) (o : Overview)
    (h : getOverview t0 t1 now strpmk lines = some o) :
    (o.pagecount = lines.countP isPageHitB ∧
     o.hits = hitsFoldFrom [] lines ∧
     o.queries = queriesFoldFrom [] lines) ∧
    (∀ pre mid post, ignoreB mid = true → lines = pre ++ mid :: post →
      (pre ++ post).countP isPageHitB = lines.countP isPageHitB ∧
      hitsFoldFrom [] (pre ++ post) = hitsFoldFrom [] lines ∧
      queriesFoldFrom [] (pre ++ post) = queriesFoldFrom [] lines) := by
  obtain ⟨hlp, _⟩ := getOverview_some t0 t1 now strpmk lines o h
  obtain ⟨hpc, hh, _, _, hq⟩ := overviewLoop_some lines initLoop _ hlp
  constructor
  · exact ⟨by simpa [initLoop] using hpc, by simpa [initLoop, hitsFoldFrom] using hh,
      by simpa [initLoop] using hq⟩
  · intro pre mid post hig hsplit
    subst hsplit
    have hmid : isPageHitB mid = false := isPageHitB_of_ignore hig
    refine ⟨?_, ?_, ?_⟩
    · simp [List.countP_append, List.countP_cons, hmid]
    · unfold hitsFoldFrom
      rw [List.filter_append, List.filter_append, List.filter_cons,
        if_neg (by simp [hmid])]
    · unfold queriesFoldFrom referrersOfLines
      rw [List.filter_append, List.filter_append, List.filter_cons,
        if_neg (by simp [hmid])]

/-- Witness for C4 at a concrete four-line set containing an ignored line. -/
theorem overview_counts_ignore_witness :
    ∃ o, getOverview 0 1 4600 strpmkC
        [goodLineC, ownRefLineC, nonPageLineC,
          ("24.124.4.220 - - [12/Oct/2026:10:07:00 +0000] \"GET /docs/ HTTP/1.1\" " ++
            "200 123 \"http://x.example/\" \"agent\"").toList] = some o ∧
      ((o.pagecount = List.countP isPageHitB
          [goodLineC, ownRefLineC, nonPageLineC,
            ("24.124.4.220 - - [12/Oct/2026:10:07:00 +0000] \"GET /docs/ HTTP/1.1\" " ++
              "200 123 \"http://x.example/\" \"agent\"").toList] ∧
        o.hits = hitsFoldFrom []
          [goodLineC, ownRefLineC, nonPageLineC,
            ("24.124.4.220 - - [12/Oct/2026:10:07:00 +0000] \"GET /docs/ HTTP/1.1\" " ++
              "200 123 \"http://x.example/\" \"agent\"").toList] ∧
        o.queries = queriesFoldFrom []
          [goodLineC, ownRefLineC, nonPageLineC,
            ("24.124.4.220 - - [12/Oct/2026:10:07:00 +0000] \"GET /docs/ HTTP/1.1\" " ++
              "200 123 \"http://x.example/\" \"agent\"").toList]) ∧
       (∀ pre mid post, ignoreB mid = true →
          [goodLineC, ownRefLineC, nonPageLineC,
            ("24.124.4.220 - - [12/Oct/2026:10:07:00 +0000] \"GET /docs/ HTTP/1.1\" " ++
              "200 123 \"http://x.example/\" \"agent\"").toList] = pre ++ mid :: post →
          (pre ++ post).countP isPageHitB = List.countP isPageHitB
            [goodLineC, ownRefLineC, nonPageLineC,
              ("24.124.4.220 - - [12/Oct/2026:10:07:00 +0000] \"GET /docs/ HTTP/1.1\" " ++
                "200 123 \"http://x.example/\" \"agent\"").toList] ∧
          hitsFoldFrom [] (pre ++ post) = hitsFoldFrom []
            [goodLineC, ownRefLineC, nonPageLineC,
              ("24.124.4.220 - - [12/Oct/2026:10:07:00 +0000] \"GET /docs/ HTTP/1.1\" " ++
                "200 123 \"http://x.example/\" \"agent\"").toList] ∧
          queriesFoldFrom [] (pre ++ post) = queriesFoldFrom []
            [goodLineC, ownRefLineC, nonPageLineC,
              ("24.124.4.220 - - [12/Oct/2026:10:07:00 +0000] \"GET /docs/ HTTP/1.1\" " ++
                "200 123 \"http://x.example/\" \"agent\"").toList])) := by
  cases ho : getOverview 0 1 4600 strpmkC
      [goodLineC, ownRefLineC, nonPageLineC,
        ("24.124.4.220 - - [12/Oct/2026:10:07:00 +0000] \"GET /docs/ HTTP/1.1\" " ++
          "200 123 \"http://x.example/\" \"agent\"").toList] with
  | none => exact absurd ho (by decide)
  | some o => exact ⟨o, rfl, overview_counts_ignore 0 1 4600 strpmkC _ o ho⟩

/-- C7: running the aggregator twice over the same immutable line set (at
different wall-clock instants, hence different `t0`, `t1`, `now`) yields
identical Overview counts: per-resource hits, pagecount, totalhits and
queries agree between the two runs. -/
theorem overview_idempotent (t0 t1 t0' t1' : ℚ) (now now' : ℤ)
    (strpmk strpmk' : List Char → Option ℤ) (lines : List (List Char))
    (o o' : Overview)
    (h1 : getOverview t0 t1 now strpmk lines = some o)
    (h2 : getOverview t0' t1' now' strpmk' lines = some o') :
    o.hits = o'.hits ∧ o.pagecount = o'.pagecount ∧
    o.totalhits = o'.totalhits ∧ o.queries = o'.queries := by
  obtain ⟨hl1, ht1⟩ := getOverview_some t0 t1 now strpmk lines o h1
  obtain ⟨hl2, ht2⟩ := getOverview_some t0' t1' now' strpmk' lines o' h2
  have hrec := Option.some.inj (hl1.symm.trans hl2)
  refine ⟨?_, ?_, by rw [ht1, ht2], ?_⟩
  · exact congrArg LoopState.hits hrec
  · exact congrArg LoopState.pagecount hrec
  · exact congrArg LoopState.queries hrec

/-- Witness for C7 at a concrete line set and two different run instants. -/
theorem overview_idempotent_witness :
    ∃ o o', getOverview 0 1 4600 strpmkC [goodLineC, nonPageLineC] = some o ∧
      getOverview 7 9 8200 strpmkC [goodLineC, nonPageLineC] = some o' ∧
      (o.hits = o'.hits ∧ o.pagecount = o'.pagecount ∧
       o.totalhits = o'.totalhits ∧ o.queries = o'.queries) := by
  cases ho : getOverview 0 1 4600 strpmkC [goodLineC, nonPageLineC] with
  | none => exact absurd ho (by decide)
  | some o =>
    cases ho' : getOverview 7 9 8200 strpmkC [goodLineC, nonPageLineC] with
    | none => exact absurd ho' (by decide)
    | some o' =>
      exact ⟨o, o', rfl, rfl,
        overview_idempotent 0 1 7 9 4600 8200 strpmkC strpmkC _ o o' ho ho'⟩

/-- C9: `getOverview` defines `lastrequest` as the resource of the last page
hit in encounter order, and produces an Overview only when the processed line
set contains at least one page hit: with zero page hits the `lastres` local
is never assigned and the pass fails instead of returning a result. -/
theorem overview_lastrequest (t0 t1 : ℚ) (now : ℤ) (strpmk : List Char → Option ℤ)
    (lines : List (List Char)) :
    (∀ o, getOverview t0 t1 now strpmk lines = some o →
      ((lines.filter isPageHitB).getLast?).map resourceOfD = some o.lastrequest) ∧
    (lines.filter isPageHitB = [] →
      getOverview t0 t1 now strpmk lines = none) := by
  constructor
  · intro o h
    obtain ⟨hlp, _⟩ := getOverview_some t0 t1 now strpmk lines o h
    obtain ⟨_, _, hlr, _, _⟩ := overviewLoop_some lines initLoop _ hlp
    cases hgl : (lines.filter isPageHitB).getLast? with
    | none =>
      rw [hgl] at hlr
      simp [initLoop] at hlr
    | some m =>
      rw [hgl] at hlr
      simp only at hlr
      simp [hlr]
  · intro hfe
    unfold getOverview
    split
    · rfl
    · split
      · rfl
      · dsimp only
        cases hlp : overviewLoop initLoop _ with
        | none => rfl
        | some st =>
          obtain ⟨_, _, hlr, _, _⟩ := overviewLoop_some _ initLoop st hlp
          rw [hfe] at hlr
          simp [initLoop] at hlr
          dsimp only
          rw [hlr]

/-- Witness for C9: the value of `lastrequest` on a concrete successful pass,
and failure on a concrete pass with no page hits. -/
theorem overview_lastrequest_witness :
    (∃ o, getOverview 0 1 4600 strpmkC [goodLineC, ownRefLineC, nonPageLineC] = some o ∧
      (([goodLineC, ownRefLineC, nonPageLineC].filter isPageHitB).getLast?).map
        resourceOfD = some o.lastrequest) ∧
    getOverview 0 1 4600 strpmkC [nonPageLineC] = none := by
  constructor
  · cases ho : getOverview 0 1 4600 strpmkC [goodLineC, ownRefLineC, nonPageLineC] with
    | none => exact absurd ho (by decide)
    | some o =>
      exact ⟨o, rfl,
        (overview_lastrequest 0 1 4600 strpmkC [goodLineC, ownRefLineC, nonPageLineC]).1 o ho⟩
  · exact (overview_lastrequest 0 1 4600 strpmkC [nonPageLineC]).2 (by decide)

/-! ## Validation of the integer formulation of the time arithmetic -/

theorem timeSinceApacheDate_eq_floor (thenE now : ℤ) :
    timeSinceApacheDate thenE now =
      (⌊(((now - thenE : ℤ) : ℚ) / 60) / 60⌋,
       ratTrunc ((((now - thenE : ℤ) : ℚ) / 60) -
         60 * (⌊(((now - thenE : ℤ) : ℚ) / 60) / 60⌋ : ℚ))) := by
  have h36 : (((now - thenE : ℤ) : ℚ) / 60) / 60 =
      ((now - thenE : ℤ) : ℚ) / ((3600 : ℕ) : ℚ) := by
    push_cast
    ring
  have hfl : ⌊(((now - thenE : ℤ) : ℚ) / 60) / 60⌋ = (now - thenE) / 3600 := by
    rw [h36, Rat.floor_intCast_div_natCast]
    norm_num
  have hmin : (((now - thenE : ℤ) : ℚ) / 60) -
      60 * (⌊(((now - thenE : ℤ) : ℚ) / 60) / 60⌋ : ℚ) =
      (((now - thenE) % 3600 : ℤ) : ℚ) / ((60 : ℕ) : ℚ) := by
    rw [hfl, Int.emod_def]
    push_cast
    ring
  have hnn : (0 : ℚ) ≤ (((now - thenE) % 3600 : ℤ) : ℚ) / ((60 : ℕ) : ℚ) := by
    apply div_nonneg
    · exact_mod_cast Int.emod_nonneg (now - thenE) (by norm_num)
    · norm_num
  unfold timeSinceApacheDate
  rw [hmin, hfl, ratTrunc, if_pos hnn, Rat.floor_intCast_div_natCast]
  norm_num

theorem denom_zero_iff (h m : ℤ) :
    ((h : ℚ) + (m : ℚ) / 60 = 0) ↔ 60 * h + m = 0 := by
  have hrw : (h : ℚ) + (m : ℚ) / 60 = ((60 * h + m : ℤ) : ℚ) / 60 := by
    push_cast
    ring
  rw [hrw, div_eq_zero_iff]
  norm_num
  exact_mod_cast Iff.rfl

/-! ## C1 and C2: exceptions that escape getOverview -/

/-- C1 is violated by the code: a line with fewer than seven space-delimited
tokens among otherwise well-formed lines makes `line.split(' ')[6]` raise an
uncaught `IndexError`, so the whole aggregation pass fails (first conjunct),
while the same pass without the malformed line succeeds (second conjunct). -/
theorem overview_malformed_line_aborts :
    getOverview 0 1 4600 strpmkC [goodLineC, shortLineC] = none ∧
    (getOverview 0 1 4600 strpmkC [goodLineC]).isSome = true := by
  constructor
  · decide
  · decide

/-- C2 is violated by the code: when the first line's timestamp is zero hours
and zero minutes before the current time (`now` equals the parsed timestamp,
epoch second 1000), `pagecount / (hourssince + (float(minutessince) / 60))`
divides by zero and the pass fails (first conjunct); one hour later the same
line set succeeds (second conjunct). -/
theorem overview_zero_elapsed_divzero :
    getOverview 0 1 1000 strpmkC [goodLineC] = none ∧
    (getOverview 0 1 4600 strpmkC [goodLineC]).isSome = true := by
  constructor
  · decide
  · decide

/-! ## Lemmas about isSubstr, splitDslash and justdomain -/

theorem isSubstr_eq_true_iff (pat s : List Char) :
    isSubstr pat s = true ↔ pat <:+: s := by
  induction s with
  | nil =>
    simp [isSubstr, List.isEmpty_iff]
  | cons c rest ih =>
    rw [isSubstr, Bool.or_eq_true, List.infix_cons_iff, ih,
      List.isPrefixOf_iff_prefix]

theorem splitDslash_ne_nil (s : List Char) : splitDslash s ≠ [] := by
  induction s using splitDslash.induct with
  | case1 => simp [splitDslash]
  | case2 c => simp [splitDslash]
  | case3 c d rest hcd ih => simp [splitDslash, hcd]
  | case4 c d rest hcd heq ih => simp [splitDslash, hcd, heq]
  | case5 c d rest hcd hd tl heq ih => simp [splitDslash, hcd, heq]

theorem splitDslash_no_sep (url : List Char) (h : isSubstr dslashPat url = false) :
    splitDslash url = [url] := by
  induction url using splitDslash.induct with
  | case1 => rfl
  | case2 c => rfl
  | case3 c d rest hcd ih =>
    exfalso
    obtain ⟨hc, hd⟩ := hcd
    subst hc; subst hd
    simp [isSubstr, dslashPat, List.isPrefixOf] at h
  | case4 c d rest hcd heq ih =>
    exfalso
    rw [isSubstr, Bool.or_eq_false_iff] at h
    rw [ih h.2] at heq
    exact absurd heq (by simp)
  | case5 c d rest hcd hd tl heq ih =>
    rw [isSubstr, Bool.or_eq_false_iff] at h
    simp [splitDslash, hcd, ih h.2]

theorem justdomain_no_dslash (url : List Char) (h : isSubstr dslashPat url = false) :
    justdomain url = badReferrer := by
  simp [justdomain, splitDslash_no_sep url h, pyGet]

theorem isPrefixOf_dslash_false {c d : Char} (rest : List Char)
    (hcd : ¬(c = '/' ∧ d = '/')) :
    dslashPat.isPrefixOf (c :: d :: rest) = false := by
  cases hpre : dslashPat.isPrefixOf (c :: d :: rest) with
  | false => rfl
  | true =>
    exfalso
    have := List.isPrefixOf_iff_prefix.mp hpre
    obtain ⟨t, ht⟩ := this
    apply hcd
    simp [dslashPat] at ht
    obtain ⟨h1, h2, _⟩ := ht
    exact ⟨h1.symm, h2.symm⟩

theorem splitDslash_get1 (url : List Char) (h : isSubstr dslashPat url = true) :
    ∃ r, afterDslash url = some r ∧
      pyGet (splitDslash url) 1 = some ((splitDslash r).headD []) := by
  induction url using splitDslash.induct with
  | case1 => simp [isSubstr, dslashPat] at h
  | case2 c => simp [isSubstr, dslashPat, List.isPrefixOf] at h
  | case3 c d rest hcd ih =>
    refine ⟨rest, by simp [afterDslash, hcd], ?_⟩
    cases he : splitDslash rest with
    | nil => exact absurd he (splitDslash_ne_nil rest)
    | cons a t => simp [splitDslash, hcd, pyGet, he]
  | case4 c d rest hcd heq ih =>
    exact absurd heq (splitDslash_ne_nil (d :: rest))
  | case5 c d rest hcd hd tl heq ih =>
    have h2 : isSubstr dslashPat (d :: rest) = true := by
      rw [isSubstr, isPrefixOf_dslash_false rest hcd] at h
      simpa using h
    obtain ⟨r, ha, hg⟩ := ih h2
    refine ⟨r, by simp [afterDslash, hcd, ha], ?_⟩
    rw [heq] at hg
    simp [pyGet] at hg
    simp [splitDslash, hcd, heq, pyGet, hg]

theorem splitCh_head (sep : Char) (s : List Char) :
    ∃ t, splitCh sep s = s.takeWhile (fun c => c != sep) :: t := by
  induction s with
  | nil => exact ⟨[], rfl⟩
  | cons c rest ih =>
    obtain ⟨t, ht⟩ := ih
    by_cases hc : c = sep
    · refine ⟨splitCh sep rest, ?_⟩
      rw [splitCh_cons, if_pos hc, List.takeWhile_cons]
      simp [hc]
    · refine ⟨t, ?_⟩
      rw [splitCh_cons, if_neg hc, ht]
      simp [List.takeWhile_cons, hc]

theorem splitDslash_headD_takeWhile (r : List Char) :
    ((splitDslash r).headD []).takeWhile (fun c => c != '/') =
      r.takeWhile (fun c => c != '/') := by
  induction r using splitDslash.induct with
  | case1 => rfl
  | case2 c => rfl
  | case3 c d rest hcd ih =>
    obtain ⟨hc, hd⟩ := hcd
    subst hc; subst hd
    simp [splitDslash, List.takeWhile_cons]
  | case4 c d rest hcd heq ih =>
    exact absurd heq (splitDslash_ne_nil (d :: rest))
  | case5 c d rest hcd hd tl heq ih =>
    rw [heq] at ih
    simp only [List.headD_cons] at ih
    have hsplit : splitDslash (c :: d :: rest) = (c :: hd) :: tl := by
      have hdef : splitDslash (c :: d :: rest) =
          if c = '/' ∧ d = '/' then [] :: splitDslash rest
          else
            match splitDslash (d :: rest) with
            | [] => [[c]]
            | h :: t => (c :: h) :: t := rfl
      rw [hdef, if_neg hcd, heq]
    rw [hsplit, List.headD_cons, List.takeWhile_cons, List.takeWhile_cons, ih]

theorem afterDslash_sfx (url r : List Char) (h : afterDslash url = some r) :
    r <:+ url := by
  induction url using afterDslash.induct with
  | case1 => exact absurd h (by simp [afterDslash])
  | case2 c => exact absurd h (by simp [afterDslash])
  | case3 c d rest hcd =>
    rw [afterDslash, if_pos hcd] at h
    injection h with h2
    subst h2
    exact (List.suffix_cons d rest).trans (List.suffix_cons c (d :: rest))
  | case4 c d rest hcd ih =>
    rw [afterDslash, if_neg hcd] at h
    exact (ih h).trans (List.suffix_cons c (d :: rest))

theorem justdomain_spec_aux (url : List Char) :
    (isSubstr dslashPat url = true →
      ∃ r, afterDslash url = some r ∧
        justdomain url = r.takeWhile (fun c => c != '/')) ∧
    (isSubstr dslashPat url = false → justdomain url = badReferrer) := by
  constructor
  · intro h
    obtain ⟨r, ha, hg⟩ := splitDslash_get1 url h
    refine ⟨r, ha, ?_⟩
    obtain ⟨t, hsc⟩ := splitCh_head '/' ((splitDslash r).headD [])
    unfold justdomain
    rw [hg]
    dsimp only
    rw [hsc]
    simp [pyGet]
    simpa using splitDslash_headD_takeWhile r
  · exact justdomain_no_dslash url

/-- C10: for every input string, `justdomain` returns without raising: it
yields the substring between the first `'//'` and the next `'/'` when the
input contains `'//'` (stated via the spec-side `afterDslash` and
`takeWhile`), and the literal string `'bad referrer'` otherwise. -/
theorem justdomain_total_spec (url : List Char) :
    (isSubstr dslashPat url = true →
      ∃ r, afterDslash url = some r ∧
        justdomain url = r.takeWhile (fun c => c != '/')) ∧
    (isSubstr dslashPat url = false → justdomain url = badReferrer) :=
  justdomain_spec_aux url

/-- Witness for C10 at a URL containing `'//'` and one without. -/
theorem justdomain_total_spec_witness :
    (isSubstr dslashPat "http://www.google.com/search".toList = true ∧
      ∃ r, afterDslash "http://www.google.com/search".toList = some r ∧
        justdomain "http://www.google.com/search".toList =
          r.takeWhile (fun c => c != '/')) ∧
    (isSubstr dslashPat "evil referrer".toList = false ∧
      justdomain "evil referrer".toList = badReferrer) := by
  refine ⟨⟨by decide, (justdomain_total_spec _).1 (by decide)⟩,
    ⟨by decide, (justdomain_total_spec _).2 (by decide)⟩⟩

theorem substr_thisdomain_of_justdomain (ref : List Char)
    (h : isSubstr thisdomainL (justdomain ref) = true) :
    isSubstr thisdomainL ref = true := by
  by_cases hc : isSubstr dslashPat ref = true
  · obtain ⟨r, ha, hj⟩ := (justdomain_spec_aux ref).1 hc
    rw [hj] at h
    have h1 : thisdomainL <:+: r.takeWhile (fun c => c != '/') :=
      (isSubstr_eq_true_iff _ _).mp h
    have h2 : r.takeWhile (fun c => c != '/') <+: r := List.takeWhile_prefix _
    have h3 : r <:+ ref := afterDslash_sfx ref r ha
    exact (isSubstr_eq_true_iff _ _).mpr (h1.trans (h2.isInfix.trans h3.isInfix))
  · rw [justdomain_no_dslash ref (by simpa using hc)] at h
    exact absurd h (by decide)

/-- C6: in the Overview of one pass, no referrer whose host (as `justdomain`
computes it) contains the site's own domain appears in the ordered referrer
list, and the query counts are exactly the fold over the queries extracted
from the listed referrers — so an own-domain referrer contributes to neither. -/
theorem overview_own_domain_excluded (t0 t1 : ℚ) (now : ℤ)
    (strpmk : List Char → Option ℤ) (lines : List (List Char)) (o : Overview)
    (h : getOverview t0 t1 now strpmk lines = some o) :
    (∀ p ∈ o.referrers, isSubstr thisdomainL (justdomain p.1) = false) ∧
    o.queries = (o.referrers.filterMap Prod.snd).foldl dictIncr [] := by
  obtain ⟨hlp, _⟩ := getOverview_some t0 t1 now strpmk lines o h
  obtain ⟨_, _, _, hrf, hq⟩ := overviewLoop_some lines initLoop _ hlp
  have hro : o.referrers = referrersOfLines lines := by
    simpa [initLoop] using hrf
  constructor
  · intro p hp
    rw [hro] at hp
    obtain ⟨l, hl, hrp⟩ := List.mem_filterMap.mp hp
    have hfalse : isSubstr thisdomainL p.1 = false := by
      unfold refPairOf at hrp
      split at hrp
      · exact absurd hrp (by simp)
      · rename_i referrer hneg
        split at hrp
        · rename_i hcond
          injection hrp with h2
          rw [← h2]
          simp only [Bool.and_eq_true, Bool.not_eq_true'] at hcond
          exact hcond.2
        · exact absurd hrp (by simp)
    cases hgoal : isSubstr thisdomainL (justdomain p.1) with
    | false => rfl
    | true =>
      exact absurd (substr_thisdomain_of_justdomain p.1 hgoal) (by simp [hfalse])
  · rw [hro]
    simpa [initLoop, queriesFoldFrom_eq] using hq

/-- Witness for C6 at a concrete line set with one own-domain referrer. -/
theorem overview_own_domain_excluded_witness :
    ∃ o, getOverview 0 1 4600 strpmkC [goodLineC, ownRefLineC] = some o ∧
      ((∀ p ∈ o.referrers, isSubstr thisdomainL (justdomain p.1) = false) ∧
       o.queries = (o.referrers.filterMap Prod.snd).foldl dictIncr []) := by
  cases ho : getOverview 0 1 4600 strpmkC [goodLineC, ownRefLineC] with
  | none => exact absurd ho (by decide)
  | some o => exact ⟨o, rfl, overview_own_domain_excluded 0 1 4600 strpmkC _ o ho⟩

/-! ## C5: the cached-DNS resolution and best-effort cache writes -/

/-- C5: `getDNS` returns the cached hostname when one was previously stored
(and the store opens and closes cleanly), returns the original address
unchanged when no entry is cached, when the store fails to open, or when the
close raises — it is total, so no failure escapes its boundary; and in
`ipdetails` the rendered report is independent of the cache store's state, so
a failure to persist a fresh entry after a successful reverse lookup is
silently ignored. -/
theorem getDNS_never_raises (openRes : Option Db) (closeOk : Bool)
    (ip : List Char) (look : Option (List Char)) (dbA dbB : Option Db)
    (today qip : List Char) (lines : List (List Char)) :
    (∀ db h, openRes = some db → closeOk = true → dbGet db ip = some h →
      getDNS openRes closeOk ip = h) ∧
    (∀ db, openRes = some db → dbGet db ip = none →
      getDNS openRes closeOk ip = ip) ∧
    (openRes = none → getDNS openRes closeOk ip = ip) ∧
    (closeOk = false → getDNS openRes closeOk ip = ip) ∧
    (ipdetails look dbA today qip lines).1 = (ipdetails look dbB today qip lines).1 := by
  refine ⟨?_, ?_, ?_, ?_, rfl⟩
  · intro db hh ho hc hg
    subst ho; subst hc
    simp [getDNS, hg]
  · intro db ho hg
    subst ho
    cases closeOk <;> simp [getDNS, hg]
  · intro ho
    subst ho
    rfl
  · intro hc
    subst hc
    cases openRes <;> simp [getDNS]

/-- Witness for C5: a cached hit, an uncached miss, an open failure, and the
report's independence of the cache store, at concrete inputs. -/
theorem getDNS_never_raises_witness :
    getDNS (some [("9.9.9.9".toList, "host.example".toList)]) true
      "9.9.9.9".toList = "host.example".toList ∧
    getDNS (some []) true "9.9.9.9".toList = "9.9.9.9".toList ∧
    getDNS none true "9.9.9.9".toList = "9.9.9.9".toList ∧
    (ipdetails (some "host.example".toList) (some []) "12/Oct/2026".toList
        "9.9.9.9".toList [ipLineC]).1 =
      (ipdetails (some "host.example".toList) none "12/Oct/2026".toList
        "9.9.9.9".toList [ipLineC]).1 := by
  refine ⟨?_, ?_, ?_, ?_⟩
  · exact (getDNS_never_raises (some [("9.9.9.9".toList, "host.example".toList)])
      true "9.9.9.9".toList none none none [] [] []).1 _ _ rfl rfl (by decide)
  · exact (getDNS_never_raises (some []) true "9.9.9.9".toList
      none none none [] [] []).2.1 _ rfl (by decide)
  · exact (getDNS_never_raises none true "9.9.9.9".toList
      none none none [] [] []).2.2.1 rfl
  · exact (getDNS_never_raises none true "9.9.9.9".toList
      (some "host.example".toList) (some []) none "12/Oct/2026".toList
      "9.9.9.9".toList [ipLineC]).2.2.2.2

/-! ## C8: the per-address detail view -/

theorem numberRows_map_fst (today : List Char) (pc : Nat) (ls : List (List Char)) :
    (numberRows today pc ls).map Prod.fst = List.range' pc ls.length := by
  induction ls generalizing pc with
  | nil => rfl
  | cons l rest ih => simp [numberRows, List.range'_succ, ih]

theorem numberRows_length (today : List Char) (pc : Nat) (ls : List (List Char)) :
    (numberRows today pc ls).length = ls.length := by
  induction ls generalizing pc with
  | nil => rfl
  | cons l rest ih => simp [numberRows, ih]

theorem ipProcessLine_some (today ip : List Char) (st : IpState) (l : List Char)
    (st' : IpState) (h : ipProcessLine today ip st l = some st') :
    (ipMatchB ip l = false ∧ st' = st) ∨
    (ipMatchB ip l = true ∧ ∃ fa fr : Option (List Char),
      (st.counter = 1 → fa = some (truncAgent (uaOfD l)) ∧
        fr = (if (refOfD l).length > 1 then some (refOfD l) else none)) ∧
      (st.counter ≠ 1 → fa = st.firstAgent ∧ fr = st.firstReferrer) ∧
      ((ispage (resourceOfD l) = true ∧
        st' = ⟨st.counter + 1, st.pagecounter + 1, fr, fa,
          st.rows ++ [(st.pagecounter, todayTimeOfD today l, resourceOfD l)]⟩) ∨
       (ispage (resourceOfD l) = false ∧
        st' = ⟨st.counter + 1, st.pagecounter, fr, fa, st.rows⟩))) := by
  unfold ipProcessLine at h
  split at h
  · exact absurd h (by simp)
  · rename_i address haddr
    split at h
    · rename_i hip
      right
      have hmatch : ipMatchB ip l = true := by
        simp [ipMatchB, addrOfD, haddr, hip]
      refine ⟨hmatch, ?_⟩
      dsimp only at h
      split at h
      · exact absurd h (by simp)
      · rename_i tok3 htok
        split at h
        · exact absurd h (by simp)
        · rename_i resource hres
          have hrd : resourceOfD l = resource := by simp [resourceOfD, hres]
          have htd : todayTimeOfD today l = todayTime today tok3 := by
            simp [todayTimeOfD, htok]
          split at h
          · rename_i hc1
            split at h
            · exact absurd h (by simp)
            · rename_i referrer hneg
              split at h
              · exact absurd h (by simp)
              · rename_i ua hua
                have hud : uaOfD l = ua := by simp [uaOfD, hua]
                have hrf : refOfD l = referrer := by simp [refOfD, hneg]
                refine ⟨some (truncAgent ua),
                  if referrer.length > 1 then some referrer else none, ?_, ?_, ?_⟩
                · intro _
                  exact ⟨by rw [hud], by rw [hrf]⟩
                · intro hne
                  exact absurd hc1 hne
                · split at h
                  · rename_i hpage
                    left
                    refine ⟨by rw [hrd]; exact hpage, ?_⟩
                    injection h with h2
                    rw [← h2, hrd, htd]
                  · rename_i hpage
                    right
                    refine ⟨by rw [hrd]; simpa using hpage, ?_⟩
                    injection h with h2
                    rw [← h2]
          · rename_i hc1
            refine ⟨st.firstAgent, st.firstReferrer, ?_, ?_, ?_⟩
            · intro hc; exact absurd hc hc1
            · intro _; exact ⟨rfl, rfl⟩
            · split at h
              · rename_i hpage
                left
                refine ⟨by rw [hrd]; exact hpage, ?_⟩
                injection h with h2
                rw [← h2, hrd, htd]
              · rename_i hpage
                right
                refine ⟨by rw [hrd]; simpa using hpage, ?_⟩
                injection h with h2
                rw [← h2]
    · rename_i hip
      left
      injection h with h2
      refine ⟨?_, h2.symm⟩
      simp [ipMatchB, addrOfD, haddr]
      exact fun hc => hip hc

theorem ipLoop_invariant (today ip : List Char) (lines : List (List Char)) :
    ∀ st st', 1 ≤ st.counter → ipLoop today ip st lines = some st' →
      st'.counter = st.counter + lines.countP (ipMatchB ip) ∧
      st'.pagecounter = st.pagecounter + (pageMatched ip lines).length ∧
      st'.rows = st.rows ++ numberRows today st.pagecounter (pageMatched ip lines) ∧
      (st.counter ≠ 1 →
        st'.firstAgent = st.firstAgent ∧ st'.firstReferrer = st.firstReferrer) ∧
      (st.counter = 1 →
        (match (lines.filter (ipMatchB ip)).head? with
          | none => st'.firstAgent = st.firstAgent ∧ st'.firstReferrer = st.firstReferrer
          | some m => st'.firstAgent = some (truncAgent (uaOfD m)) ∧
              st'.firstReferrer =
                (if (refOfD m).length > 1 then some (refOfD m) else none))) := by
  induction lines with
  | nil =>
    intro st st' hc h
    injection h with h2
    subst h2
    simp [pageMatched, numberRows]
  | cons l rest ih =>
    intro st st' hc h
    rw [ipLoop] at h
    cases hpl : ipProcessLine today ip st l with
    | none => rw [hpl] at h; exact absurd h (by simp)
    | some st1 =>
      rw [hpl] at h
      rcases ipProcessLine_some today ip st l st1 hpl with ⟨hmf, rfl⟩ |
        ⟨hmt, fa, fr, h1, hne1, hcase⟩
      · obtain ⟨ic, ipc, irows, ine, i1⟩ := ih st1 st' hc h
        have hfneg : pageMatched ip (l :: rest) = pageMatched ip rest := by
          simp [pageMatched, List.filter_cons, hmf]
        refine ⟨?_, ?_, ?_, ine, ?_⟩
        · rw [ic, List.countP_cons, hmf]; simp
        · rw [ipc, hfneg]
        · rw [irows, hfneg]
        · intro h1c
          rw [List.filter_cons, if_neg (by simp [hmf])]
          exact i1 h1c
      · have hhead : ((l :: rest).filter (ipMatchB ip)).head? = some l := by
          rw [List.filter_cons, if_pos hmt, List.head?_cons]
        rcases hcase with ⟨hpage, rfl⟩ | ⟨hpage, rfl⟩
        · obtain ⟨ic, ipc, irows, ine, _⟩ :=
            ih _ st' (Nat.le_add_left 1 st.counter) h
          dsimp only at ic ipc irows ine
          have hpm : pageMatched ip (l :: rest) = l :: pageMatched ip rest := by
            simp [pageMatched, List.filter_cons, hmt, hpage]
          have hne : st.counter + 1 ≠ 1 := by omega
          obtain ⟨ifa, ifr⟩ := ine hne
          refine ⟨?_, ?_, ?_, ?_, ?_⟩
          · rw [ic, List.countP_cons, hmt]; simp; omega
          · rw [ipc, hpm]; simp; omega
          · rw [irows, hpm, numberRows, List.append_assoc]; rfl
          · intro h1c
            obtain ⟨e1, e2⟩ := hne1 h1c
            rw [ifa, ifr, e1, e2]
            exact ⟨rfl, rfl⟩
          · intro h1c
            rw [hhead]
            obtain ⟨e1, e2⟩ := h1 h1c
            rw [ifa, ifr, e1, e2]
            exact ⟨rfl, rfl⟩
        · obtain ⟨ic, ipc, irows, ine, _⟩ :=
            ih _ st' (Nat.le_add_left 1 st.counter) h
          dsimp only at ic ipc irows ine
          have hpm : pageMatched ip (l :: rest) = pageMatched ip rest := by
            simp [pageMatched, List.filter_cons, hmt, hpage]
          have hne : st.counter + 1 ≠ 1 := by omega
          obtain ⟨ifa, ifr⟩ := ine hne
          refine ⟨?_, ?_, ?_, ?_, ?_⟩
          · rw [ic, List.countP_cons, hmt]; simp; omega
          · rw [ipc, hpm]
          · rw [irows, hpm]
          · intro h1c
            obtain ⟨e1, e2⟩ := hne1 h1c
            rw [ifa, ifr, e1, e2]
            exact ⟨rfl, rfl⟩
          · intro h1c
            rw [hhead]
            obtain ⟨e1, e2⟩ := h1 h1c
            rw [ifa, ifr, e1, e2]
            exact ⟨rfl, rfl⟩

/-- C8 (amended): in the per-address detail view, the first hit from the
queried address reports the referrer when it is longer than one character,
and the user agent truncated — when longer than 50 characters — to its first
50 characters, whitespace-stripped, with `'...'` appended (so up to 53
characters, per `truncAgent`); and page hits are numbered 1, 2, … by a
counter separate from the counter over all hits from that address. -/
theorem ipdetails_first_hit_and_paging (look : Option (List Char))
    (db : Option Db) (today ip : List Char) (lines : List (List Char))
    (st : IpState)
    (h : (ipdetails look db today ip lines).1.details = some st) :
    st.rows.map Prod.fst = List.range' 1 st.rows.length ∧
    st.rows.length = (pageMatched ip lines).length ∧
    st.counter = 1 + lines.countP (ipMatchB ip) ∧
    (∀ m, (lines.filter (ipMatchB ip)).head? = some m →
      st.firstAgent = some (truncAgent (uaOfD m)) ∧
      st.firstReferrer = (if (refOfD m).length > 1 then some (refOfD m) else none)) := by
  have hl : ipLoop today ip initIp lines = some st := by
    simpa [ipdetails] using h
  obtain ⟨hc, hpc, hrows, _, h1⟩ :=
    ipLoop_invariant today ip lines initIp st (by simp [initIp]) hl
  dsimp only [initIp] at hc hpc hrows h1
  refine ⟨?_, ?_, ?_, ?_⟩
  · rw [hrows]
    simp [numberRows_map_fst, numberRows_length]
  · rw [hrows]
    simp [numberRows_length]
  · rw [hc]
  · intro m hm
    have h2 := h1 rfl
    rw [hm] at h2
    exact h2

/-- C8 as frozen is false at this input: the first hit's user agent has 60
characters, and the reported truncation has 53 characters, not at most 50. -/
theorem ipdetails_agent53_counterexample :
    ((ipdetails (some "host.example".toList) (some []) "12/Oct/2026".toList
        "9.9.9.9".toList [ipLineC, ipLine2C, ipLine3C]).1.details.map
      (fun st => st.firstAgent.map List.length)) = some (some 53) ∧
    ¬(53 ≤ 50) := ⟨by decide, by decide⟩

/-- Witness for the amended C8 at a concrete four-line set (two page hits and
one non-page hit from the queried address, one foreign line). -/
theorem ipdetails_first_hit_and_paging_witness :
    ∃ st, (ipdetails (some "host.example".toList) (some []) "12/Oct/2026".toList
        "9.9.9.9".toList [ipLineC, nonPageLineC, ipLine2C, ipLine3C]).1.details =
        some st ∧
      (st.rows.map Prod.fst = List.range' 1 st.rows.length ∧
       st.rows.length =
         (pageMatched "9.9.9.9".toList [ipLineC, nonPageLineC, ipLine2C, ipLine3C]).length ∧
       st.counter = 1 +
         List.countP (ipMatchB "9.9.9.9".toList) [ipLineC, nonPageLineC, ipLine2C, ipLine3C] ∧
       (∀ m, ([ipLineC, nonPageLineC, ipLine2C, ipLine3C].filter
           (ipMatchB "9.9.9.9".toList)).head? = some m →
         st.firstAgent = some (truncAgent (uaOfD m)) ∧
         st.firstReferrer = (if (refOfD m).length > 1 then some (refOfD m) else none))) := by
  cases hd : (ipdetails (some "host.example".toList) (some []) "12/Oct/2026".toList
      "9.9.9.9".toList [ipLineC, nonPageLineC, ipLine2C, ipLine3C]).1.details with
  | none => exact absurd hd (by decide)
  | some st =>
    exact ⟨st, rfl, ipdetails_first_hit_and_paging _ _ _ _ _ st hd⟩

end Peastat
